import Mathlib

/-!
Verification development for the request-scoped lazy parallel task
orchestrator of the `astro-auto-load` repository.

The runtime sources embedded here:
* `src/runtime/registry.ts` — the AsyncLocalStorage-scoped registry
  (`registerLoader`, `getRegistry`, `initializeRequestRegistry`);
* `src/runtime/orchestrator.ts` — the `LazyLoaderExecutor` class
  (single-batch variant: `getData`, `executeAll`, `executeBatch`);
* the stability-loop iteration of `LazyLoaderExecutor`
  (`waitForRegistryStability`, late-arrival re-scheduling `getData`,
  registry-wide `executeBatch`);
* `src/runtime/dedupe.ts` and the keyed `promiseDedupe` iteration.

Machine integers do not occur; all counters are `Nat`.  Producers are
modelled by their outcome for the request's fixed context: an
`Except String Nat` ("throws message e" / "resolves with value v")
together with a tick delay where timing matters.  Promises are modelled
by allocation-order identifiers (`Nat`); returning "the exact cached
promise" is returning the same identifier.
-/

/-- First-match association-list lookup, the model of `Map.get` /
`Map.has` (`(look l k).isSome`). -/
def look {κ α : Type} [DecidableEq κ] : List (κ × α) → κ → Option α
  | [], _ => none
  | (k, v) :: rest, q => if k = q then some v else look rest q

/-- `Map.set`: update the existing entry, else append (insertion order). -/
def setStore {κ α : Type} [DecidableEq κ] (key : κ) (v : α) :
    List (κ × α) → List (κ × α)
  | [] => [(key, v)]
  | (k, w) :: rest =>
      if k = key then (k, v) :: rest else (k, w) :: setStore key v rest

/-- `Set.add` on an insertion-ordered list: insert if absent. -/
def insIfAbsent {κ : Type} [DecidableEq κ] (k : κ) (l : List κ) : List κ :=
  if k ∈ l then l else l ++ [k]

/-- `Array.from(set)` for a list with possible repeats: keep first
occurrences only. -/
def dedupList {κ : Type} [DecidableEq κ] (l : List κ) : List κ :=
  l.foldl (fun acc k => insIfAbsent k acc) []

theorem look_eq_none_of_not_mem {κ α : Type} [DecidableEq κ]
    (l : List (κ × α)) (q : κ) (h : ∀ v, (q, v) ∉ l) : look l q = none := by
  induction l with
  | nil => rfl
  | cons p rest ih =>
      obtain ⟨k, v⟩ := p
      by_cases hk : k = q
      · subst hk
        exact absurd (List.mem_cons_self _ _) (fun hm => h v hm)
      · simp only [look, if_neg hk]
        exact ih (fun w hw => h w (List.mem_cons_of_mem _ hw))

theorem mem_of_look_eq_some {κ α : Type} [DecidableEq κ]
    (l : List (κ × α)) (q : κ) (v : α) (h : look l q = some v) : (q, v) ∈ l := by
  induction l with
  | nil => simp [look] at h
  | cons p rest ih =>
      obtain ⟨k, w⟩ := p
      by_cases hk : k = q
      · subst hk
        simp only [look, if_true, eq_self_iff_true, Option.some.injEq] at h
        rw [← h]
        exact List.mem_cons_self _ _
      · simp only [look, if_neg hk] at h
        exact List.mem_cons_of_mem _ (ih h)

theorem look_append_left {κ α : Type} [DecidableEq κ]
    (l₁ l₂ : List (κ × α)) (q : κ) (v : α) (h : look l₁ q = some v) :
    look (l₁ ++ l₂) q = some v := by
  induction l₁ with
  | nil => simp [look] at h
  | cons p rest ih =>
      obtain ⟨k, w⟩ := p
      by_cases hk : k = q
      · subst hk
        simp only [look, if_true, eq_self_iff_true, Option.some.injEq] at h
        simp [look, h]
      · simp only [look, if_neg hk] at h ⊢
        exact ih h

theorem look_append_right {κ α : Type} [DecidableEq κ]
    (l₁ l₂ : List (κ × α)) (q : κ) (h : look l₁ q = none) :
    look (l₁ ++ l₂) q = look l₂ q := by
  induction l₁ with
  | nil => rfl
  | cons p rest ih =>
      obtain ⟨k, w⟩ := p
      by_cases hk : k = q
      · simp [look, if_pos hk] at h
      · simp only [look, List.cons_append, if_neg hk] at h ⊢
        exact ih h

/-! ## Stability-detection loop

Shallow embedding of `LazyLoaderExecutor.waitForRegistryStability` from
the stability-loop iteration of the orchestrator:

```
let lastSize = this.registry.size;
let stableCount = 0;
const requiredStableChecks = 3;
await tick;
if (this.registry.size === lastSize && this.registry.size > 0) {
  for (let i = 0; i < requiredStableChecks; i++) {
    await tick;
    if (this.registry.size !== lastSize) { lastSize = size; stableCount = 0; break; }
    stableCount++;
  }
  if (stableCount >= requiredStableChecks) return;
}
while (stableCount < requiredStableChecks) {
  await tick;
  if (size === lastSize) stableCount++; else { stableCount = 0; lastSize = size; }
}
```

Each `await` yields one cooperative tick; the loop is a state machine
advanced once per tick with the registry size sampled at that tick.
`StabPhase.start` is the state after the initial synchronous sampling of
`lastSize`, about to observe the first tick; `quick i` is iteration `i`
of the bounded `for`; `wloop` is the trailing `while`. -/

inductive StabPhase : Type where
  | start : StabPhase
  | quick : Nat → StabPhase
  | wloop : StabPhase
deriving DecidableEq

structure StabState : Type where
  phase : StabPhase
  lastSize : Nat
  stableCount : Nat
deriving DecidableEq

/-- Local state at the first `await`: `lastSize = this.registry.size`
sampled synchronously at the call. -/
def stabInit (s0 : Nat) : StabState := ⟨StabPhase.start, s0, 0⟩

/-- One tick of `waitForRegistryStability`, observing current registry
size `s`.  `none` means the function returns (the batch is frozen). -/
def stabStep (st : StabState) (s : Nat) : Option StabState :=
  match st.phase with
  | StabPhase.start =>
      if s = st.lastSize ∧ 0 < s then
        some ⟨StabPhase.quick 0, st.lastSize, 0⟩
      else
        -- the fast-path guard failed: fall through to the while loop.
        -- Note `lastSize` is NOT updated here (stale baseline).
        some ⟨StabPhase.wloop, st.lastSize, 0⟩
  | StabPhase.quick i =>
      if s ≠ st.lastSize then
        some ⟨StabPhase.wloop, s, 0⟩
      else if i + 1 = 3 then
        none
      else
        some ⟨StabPhase.quick (i + 1), st.lastSize, st.stableCount + 1⟩
  | StabPhase.wloop =>
      if s = st.lastSize then
        if 3 ≤ st.stableCount + 1 then none
        else some ⟨StabPhase.wloop, st.lastSize, st.stableCount + 1⟩
      else
        some ⟨StabPhase.wloop, s, 0⟩

/-- Run the loop against a trace of registry sizes (one sample per
tick).  Returns the number of ticks consumed up to and including the
freezing tick, or `none` if the trace ends first. -/
def stabRun (st : StabState) : List Nat → Option Nat
  | [] => none
  | s :: rest =>
      match stabStep st s with
      | none => some 1
      | some st2 => (stabRun st2 rest).map (· + 1)

/-- Modelled from the spec: the claimed freeze rule for the stability
loop.  A consecutive-stable counter starts at 0 with the pre-loop size as
baseline; each tick whose sampled size equals the previous sample
increments it, any change resets it to 0; the batch is frozen at the
first tick where the counter reaches the threshold 3. -/
def specFreezeAux (prev count : Nat) : List Nat → Option Nat
  | [] => none
  | s :: rest =>
      let c := if s = prev then count + 1 else 0
      if 3 ≤ c then some 1 else (specFreezeAux s c rest).map (· + 1)

/-- Modelled from the spec: freeze tick under the claim's rule, from the
synchronously sampled baseline `s0`. -/
def specFreeze (s0 : Nat) (samples : List Nat) : Option Nat :=
  specFreezeAux s0 0 samples

/-- Invariant carried by the stability loop: the consecutive-stable
counter never exceeds 2, counts exactly the most recent samples equal to
`lastSize`, and in the bounded `for` phase equals the iteration index. -/
def stabCountOK (st : StabState) (obs : List Nat) : Prop :=
  st.stableCount ≤ 2 ∧
  (∀ k, k < st.stableCount → obs.reverse[k]? = some st.lastSize) ∧
  (∀ i, st.phase = StabPhase.quick i → st.stableCount = i)

theorem take_two_of_getElem (l : List Nat) (a : Nat)
    (h0 : l[0]? = some a) (h1 : l[1]? = some a) : l.take 2 = [a, a] := by
  match l with
  | [] => simp at h0
  | [x] => simp at h1
  | x :: y :: rest =>
      simp only [List.getElem?_cons_zero, List.getElem?_cons_succ,
        Option.some.injEq] at h0 h1
      simp [h0, h1]

theorem stabStep_none_inv (ph : StabPhase) (ls sc s : Nat) (obs : List Nat)
    (hok : stabCountOK ⟨ph, ls, sc⟩ obs)
    (h : stabStep ⟨ph, ls, sc⟩ s = none) : s = ls ∧ sc = 2 := by
  obtain ⟨hle, _, hq⟩ := hok
  have hle2 : sc ≤ 2 := hle
  cases ph with
  | start =>
      simp only [stabStep] at h
      split at h <;> cases h
  | quick i =>
      simp only [stabStep] at h
      by_cases hne : s ≠ ls
      · rw [if_pos hne] at h; cases h
      · push_neg at hne
        rw [if_neg (by simpa using hne)] at h
        by_cases h3 : i + 1 = 3
        · refine ⟨hne, ?_⟩
          have hsc : sc = i := hq i rfl
          omega
        · rw [if_neg h3] at h; cases h
  | wloop =>
      simp only [stabStep] at h
      by_cases heq : s = ls
      · rw [if_pos heq] at h
        by_cases h3 : 3 ≤ sc + 1
        · exact ⟨heq, by omega⟩
        · rw [if_neg h3] at h; cases h
      · rw [if_neg heq] at h; cases h

theorem stabCountOK_mk (ph : StabPhase) (ls sc : Nat) (obs : List Nat)
    (h1 : sc ≤ 2)
    (h2 : ∀ k, k < sc → obs.reverse[k]? = some ls)
    (h3 : ∀ i, ph = StabPhase.quick i → sc = i) :
    stabCountOK ⟨ph, ls, sc⟩ obs := ⟨h1, h2, h3⟩

theorem stabStep_preserves_ok (ph : StabPhase) (ls sc s : Nat)
    (st2 : StabState) (obs : List Nat)
    (hok : stabCountOK ⟨ph, ls, sc⟩ obs)
    (h : stabStep ⟨ph, ls, sc⟩ s = some st2) :
    stabCountOK st2 (obs ++ [s]) := by
  obtain ⟨hle, hrun, hq⟩ := hok
  have hle2 : sc ≤ 2 := hle
  have hrun2 : ∀ k, k < sc → obs.reverse[k]? = some ls := hrun
  have hq2 : ∀ i, ph = StabPhase.quick i → sc = i := hq
  have hget : ∀ k : Nat, (obs ++ [s]).reverse[k]? = (s :: obs.reverse)[k]? := by
    intro k
    simp [List.reverse_append]
  cases ph with
  | start =>
      simp only [stabStep] at h
      split at h
      · injection h with h2
        rw [← h2]
        refine stabCountOK_mk _ _ _ _ (by omega) (fun k hk => absurd hk (by omega)) ?_
        intro j hj
        injection hj
      · injection h with h2
        rw [← h2]
        exact stabCountOK_mk _ _ _ _ (by omega) (fun k hk => absurd hk (by omega))
          (fun j hj => nomatch hj)
  | quick i =>
      simp only [stabStep] at h
      by_cases hne : s ≠ ls
      · rw [if_pos hne] at h
        injection h with h2
        rw [← h2]
        exact stabCountOK_mk _ _ _ _ (by omega) (fun k hk => absurd hk (by omega))
          (fun j hj => nomatch hj)
      · push_neg at hne
        rw [if_neg (by simpa using hne)] at h
        by_cases h3 : i + 1 = 3
        · rw [if_pos h3] at h
          cases h
        · rw [if_neg h3] at h
          injection h with h2
          rw [← h2]
          have hsc : sc = i := hq2 i rfl
          refine stabCountOK_mk _ _ _ _ (by omega) ?_ ?_
          · intro k hk
            rw [hget k]
            cases k with
            | zero => simp [hne]
            | succ k =>
                simp only [List.getElem?_cons_succ]
                exact hrun2 k (by omega)
          · intro j hj
            injection hj with hj2
            omega
  | wloop =>
      simp only [stabStep] at h
      by_cases heq : s = ls
      · rw [if_pos heq] at h
        by_cases h3 : 3 ≤ sc + 1
        · rw [if_pos h3] at h
          cases h
        · rw [if_neg h3] at h
          injection h with h2
          rw [← h2]
          refine stabCountOK_mk _ _ _ _ (by omega) ?_ (fun j hj => nomatch hj)
          intro k hk
          rw [hget k]
          cases k with
          | zero => simp [heq]
          | succ k =>
              simp only [List.getElem?_cons_succ]
              exact hrun2 k (by omega)
      · rw [if_neg heq] at h
        injection h with h2
        rw [← h2]
        exact stabCountOK_mk _ _ _ _ (by omega) (fun k hk => absurd hk (by omega))
          (fun j hj => nomatch hj)

theorem stabRun_sound_aux :
    ∀ (samples : List Nat) (st : StabState) (obs : List Nat) (t : Nat),
      stabCountOK st obs → stabRun st samples = some t →
      ∃ a, ((obs ++ samples.take t).reverse.take 3) = [a, a, a] := by
  intro samples
  induction samples with
  | nil =>
      intro st obs t _ h
      simp [stabRun] at h
  | cons s rest ih =>
      intro st obs t hok h
      rw [stabRun] at h
      cases hstep : stabStep st s with
      | none =>
          rw [hstep] at h
          injection h with h1
          rw [← h1]
          obtain ⟨ph, ls, sc⟩ := st
          obtain ⟨heq, hsc⟩ := stabStep_none_inv ph ls sc s obs hok hstep
          obtain ⟨_, hrun, _⟩ := hok
          have hrun2 : ∀ k, k < sc → obs.reverse[k]? = some ls := hrun
          have h2 : obs.reverse.take 2 = [ls, ls] :=
            take_two_of_getElem _ _ (hrun2 0 (by omega)) (hrun2 1 (by omega))
          refine ⟨ls, ?_⟩
          simp only [List.take_succ_cons, List.take_zero, List.reverse_append]
          simp [heq, h2]
      | some st2 =>
          rw [hstep] at h
          obtain ⟨t', ht', rfl⟩ := Option.map_eq_some'.mp h
          obtain ⟨ph, ls, sc⟩ := st
          have hok2 : stabCountOK st2 (obs ++ [s]) :=
            stabStep_preserves_ok ph ls sc s st2 obs hok hstep
          have hres := ih st2 (obs ++ [s]) t' hok2 ht'
          simpa [List.take_succ_cons, List.append_assoc] using hres

theorem stabStep_reset_aux :
    ∀ (st : StabState) (s : Nat) (st2 : StabState),
      s ≠ st.lastSize → stabStep st s = some st2 → st2.stableCount = 0 := by
  rintro ⟨ph, ls, sc⟩ s st2 hne h
  cases ph with
  | start =>
      simp only [stabStep] at h
      rw [if_neg (by simp; intro hc; exact absurd hc hne)] at h
      injection h with h2
      rw [← h2]
  | quick i =>
      simp only [stabStep] at h
      rw [if_pos hne] at h
      injection h with h2
      rw [← h2]
  | wloop =>
      simp only [stabStep] at h
      rw [if_neg hne] at h
      injection h with h2
      rw [← h2]

/-- C2 counterexample: the claim says the batch is frozen *exactly* when
the registry size has been unchanged for 3 consecutive ticks (growth
resetting the counter).  With baseline size 1 and the registry growing to
2 during the first tick then staying at 2, the claimed rule freezes after
4 ticks, but `waitForRegistryStability` consumes 5: the fast-path guard
fails without updating `lastSize`, so the stale baseline wastes one
stable tick. -/
theorem c2_stability_freeze_counterexample :
    specFreeze 1 [2, 2, 2, 2, 2] = some 4 ∧
    stabRun (stabInit 1) [2, 2, 2, 2, 2] = some 5 := by
  decide

/-- C2 (amended): the stability loop advances one cooperative tick at a
time sampling the registry size; whenever it freezes the batch, the size
was unchanged over the 3 most recent consecutive ticks, and any tick
whose sampled size differs from the loop's reference size resets the
consecutive-stable counter to zero — but the freeze can land strictly
later than the first moment 3 consecutive unchanged ticks have elapsed. -/
theorem c2_stability_freeze_amended :
    (∀ (s0 : Nat) (samples : List Nat) (t : Nat),
        stabRun (stabInit s0) samples = some t →
        ∃ a, ((samples.take t).reverse.take 3) = [a, a, a]) ∧
    (∀ (st : StabState) (s : Nat) (st2 : StabState),
        s ≠ st.lastSize → stabStep st s = some st2 → st2.stableCount = 0) := by
  constructor
  · intro s0 samples t h
    have := stabRun_sound_aux samples (stabInit s0) [] t
      ⟨by simp [stabInit], fun k hk => by simp [stabInit] at hk, fun i hi => by cases hi⟩ h
    simpa using this
  · exact stabStep_reset_aux

/-- C2 witness: the amended theorem applied at the counterexample trace
and at a concrete resetting step. -/
theorem c2_stability_freeze_amended_witness :
    (∃ a, ((([2, 2, 2, 2, 2] : List Nat).take 5).reverse.take 3) = [a, a, a]) ∧
    (stabStep ⟨StabPhase.wloop, 1, 2⟩ 5 = some ⟨StabPhase.wloop, 5, 0⟩ →
      (⟨StabPhase.wloop, 5, 0⟩ : StabState).stableCount = 0) :=
  ⟨c2_stability_freeze_amended.1 1 [2, 2, 2, 2, 2] 5 (by decide),
   fun h => c2_stability_freeze_amended.2 ⟨StabPhase.wloop, 1, 2⟩ 5
     ⟨StabPhase.wloop, 5, 0⟩ (by decide) h⟩

/-! ## Stability-loop `LazyLoaderExecutor` (late-arrival iteration)

Shallow embedding of the `LazyLoaderExecutor` iteration whose `getData`
re-schedules a batch for late arrivals and whose `executeBatch` runs all
registered loaders:

```
async getData(moduleUrl) {
  this.requestedLoaders.add(moduleUrl);
  if (this.isBatchScheduled && !this.results.has(moduleUrl) && !this.errors.has(moduleUrl)) {
    this.batchPromise = null;
    this.isBatchScheduled = false;
  }
  if (!this.batchPromise) {
    this.isBatchScheduled = true;
    this.batchPromise = this.waitForRegistryStability().then(() => this.executeBatch());
  }
  await this.batchPromise;
  if (this.errors.has(moduleUrl)) throw this.errors.get(moduleUrl);
  return this.results.get(moduleUrl);
}
private async executeBatch() {
  const loadersToExecute = Array.from(this.registry.entries());
  const executions = loadersToExecute.map(async ([moduleUrl, loader]) => {
    if (this.results.has(moduleUrl) || this.errors.has(moduleUrl)) return;
    try { this.results.set(moduleUrl, await loader(this.context)); }
    catch (error) { this.errors.set(moduleUrl, error); }
  });
  await Promise.all(executions);
}
```

The registry is the id list (each id's loader is given by the ambient
`prods` map: delay in ticks, then outcome).  `batchPromise` is the
generation number of the promise chain it points to; a finished
stability wait synchronously runs `executeBatch`, which *starts* one
execution per registered unsettled id (all skip-guards are evaluated
before any of the new executions settles).  The single-threaded
cooperative scheduler advances the system one tick at a time: external
events first (module evaluation / `getData` prologues are synchronous),
then pending executions settle, then each in-flight
`waitForRegistryStability` observes the tick.  A stability task created
during a tick first observes the following tick (`fresh`). -/

deriving instance DecidableEq for Except

structure StabTask : Type where
  gen : Nat
  st : StabState
  fresh : Bool
deriving DecidableEq

structure Sys : Type where
  registry : List String
  results : List (String × Nat)
  errors : List (String × String)
  requestedLoaders : List String
  isBatchScheduled : Bool
  batchPromise : Option Nat
  nextGen : Nat
  stabTasks : List StabTask
  execs : List (String × Nat × Except String Nat)
  invoked : List String
deriving DecidableEq

def initSys : Sys := ⟨[], [], [], [], false, none, 0, [], [], []⟩

/-- The synchronous prologue of `getData` (everything before
`await this.batchPromise`). -/
def getData (s : Sys) (moduleUrl : String) : Sys :=
  let s1 := { s with requestedLoaders := insIfAbsent moduleUrl s.requestedLoaders }
  let s2 :=
    if s1.isBatchScheduled ∧ look s1.results moduleUrl = none ∧
        look s1.errors moduleUrl = none then
      { s1 with batchPromise := none, isBatchScheduled := false }
    else s1
  if s2.batchPromise = none then
    { s2 with
        isBatchScheduled := true,
        batchPromise := some s2.nextGen,
        nextGen := s2.nextGen + 1,
        stabTasks := s2.stabTasks ++ [⟨s2.nextGen, stabInit s2.registry.length, true⟩] }
  else s2

/-- `executeBatch`: start one execution per registered id whose entry is
absent from both stores; every skip-guard reads the stores as they are
when the batch starts, before any new execution settles. -/
def executeBatch (prods : String → Nat × Except String Nat) (s : Sys) : Sys :=
  let toRun := s.registry.filter
    (fun id => (look s.results id).isNone && (look s.errors id).isNone)
  { s with
      invoked := s.invoked ++ toRun,
      execs := s.execs ++ toRun.map (fun id => (id, (prods id).1, (prods id).2)) }

/-- External stimuli of one tick: a module registering its loader during
evaluation, or a rendering unit calling `getData`. -/
inductive Ev : Type where
  | register (id : String) : Ev
  | getData (id : String) : Ev

def applyEv (s : Sys) : Ev → Sys
  | Ev.register id => { s with registry := insIfAbsent id s.registry }
  | Ev.getData id => getData s id

/-- One in-flight `await loader(context)` advances a tick; at delay 1 it
settles into the matching store. -/
def settleOne (acc : Sys) (e : String × Nat × Except String Nat) : Sys :=
  match e with
  | (id, n, out) =>
      if n ≤ 1 then
        match out with
        | Except.ok v => { acc with results := setStore id v acc.results }
        | Except.error m => { acc with errors := setStore id m acc.errors }
      else { acc with execs := acc.execs ++ [(id, n - 1, out)] }

def settleExecs (s : Sys) : Sys :=
  s.execs.foldl settleOne { s with execs := [] }

/-- Advance one `waitForRegistryStability` task by one tick; when it
finishes, its continuation `.then(() => this.executeBatch())` runs
synchronously. -/
def advanceTask (prods : String → Nat × Except String Nat)
    (acc : Sys × List StabTask) (t : StabTask) : Sys × List StabTask :=
  if t.fresh then (acc.1, acc.2 ++ [⟨t.gen, t.st, false⟩])
  else
    match stabStep t.st acc.1.registry.length with
    | some st2 => (acc.1, acc.2 ++ [⟨t.gen, st2, false⟩])
    | none => (executeBatch prods acc.1, acc.2)

/-- One cooperative scheduling tick of the whole system. -/
def tickSys (prods : String → Nat × Except String Nat) (s : Sys)
    (evs : List Ev) : Sys :=
  let s1 := evs.foldl applyEv s
  let s2 := settleExecs s1
  let p := s2.stabTasks.foldl (advanceTask prods) (s2, [])
  { p.1 with stabTasks := p.2 }

/-- Run the system over a schedule (the events of each successive tick). -/
def runSys (prods : String → Nat × Except String Nat) (s : Sys)
    (sched : List (List Ev)) : Sys :=
  sched.foldl (tickSys prods) s

/-- C1 failing schedule: "A" registers and is requested at tick 0; its
producer needs 20 ticks.  At tick 5 — while "A" is still in flight —
"B" registers and is requested, which resets `batchPromise` and starts a
second collection cycle. -/
def schedC1 : List (List Ev) :=
  [[Ev.register "A", Ev.getData "A"]] ++ List.replicate 4 [] ++
    [[Ev.register "B", Ev.getData "B"]] ++ List.replicate 6 []

def prodsC1 : String → Nat × Except String Nat :=
  fun id => if id = "A" then (20, Except.ok 1) else (1, Except.ok 2)

/-- C1: evidence against the at-most-once invariant in the stability-loop
iteration.  "A" is registered exactly once, yet its producer is started
twice: the second collection cycle (triggered by the late `getData "B"`
at tick 5) re-runs `executeBatch` while "A"'s first execution is still in
flight, and the skip-guard consults only the settled stores.  This
contradicts the claim and the class's own documentation ("Each loader
runs exactly once per request"). -/
theorem c1_producer_started_twice :
    (runSys prodsC1 initSys schedC1).registry = ["A", "B"] ∧
    (runSys prodsC1 initSys schedC1).invoked = ["A", "A", "B"] := by
  decide

theorem getData_reset_eq (s : Sys) (id : String)
    (hsched : s.isBatchScheduled = true)
    (hres : look s.results id = none)
    (herr : look s.errors id = none) :
    getData s id =
      { s with
          requestedLoaders := insIfAbsent id s.requestedLoaders,
          isBatchScheduled := true,
          batchPromise := some s.nextGen,
          nextGen := s.nextGen + 1,
          stabTasks :=
            s.stabTasks ++ [⟨s.nextGen, stabInit s.registry.length, true⟩] } := by
  unfold getData
  simp [hsched, hres, herr]

/-- C3: when the active batch has settled (`isBatchScheduled` still set)
and `id` is registered but absent from both stores, the `getData`
prologue discards the settled scheduling state and starts a new
collection cycle (a fresh `waitForRegistryStability` task and a fresh
`batchPromise` generation); the cycle's `executeBatch` starts exactly the
registered ids that are not settled — so it executes `id` and re-executes
no settled id, and the stores' existing entries are untouched at batch
start. -/
theorem c3_late_arrival_new_cycle
    (prods : String → Nat × Except String Nat) (s : Sys) (id : String)
    (hsched : s.isBatchScheduled = true)
    (hres : look s.results id = none)
    (herr : look s.errors id = none)
    (hreg : id ∈ s.registry) :
    (getData s id).batchPromise = some s.nextGen ∧
    (getData s id).stabTasks =
      s.stabTasks ++ [⟨s.nextGen, stabInit s.registry.length, true⟩] ∧
    (executeBatch prods (getData s id)).invoked =
      (getData s id).invoked ++
        s.registry.filter
          (fun j => (look s.results j).isNone && (look s.errors j).isNone) ∧
    id ∈ s.registry.filter
          (fun j => (look s.results j).isNone && (look s.errors j).isNone) ∧
    (∀ j, j ∈ s.registry →
      ((look s.results j).isSome ∨ (look s.errors j).isSome) →
      j ∉ s.registry.filter
          (fun j2 => (look s.results j2).isNone && (look s.errors j2).isNone)) ∧
    (executeBatch prods (getData s id)).results = s.results ∧
    (executeBatch prods (getData s id)).errors = s.errors := by
  rw [getData_reset_eq s id hsched hres herr]
  refine ⟨rfl, rfl, ?_, ?_, ?_, rfl, rfl⟩
  · simp [executeBatch]
  · simp only [List.mem_filter]
    exact ⟨hreg, by simp [hres, herr]⟩
  · intro j _ hset hmem
    rw [List.mem_filter] at hmem
    rcases hset with hs | hs <;>
      · rcases hmem with ⟨_, hguard⟩
        simp only [Bool.and_eq_true, Option.isNone_iff_eq_none] at hguard
        rw [Option.isSome_iff_exists] at hs
        obtain ⟨v, hv⟩ := hs
        rw [hv] at hguard
        simp at hguard

/-- C3 witness: a settled batch over \x7b"A" ↦ 7\x7d with "B" registered
late; the decidable conjuncts of the theorem evaluated there. -/
theorem c3_late_arrival_new_cycle_witness :
    ((getData ⟨["A", "B"], [("A", 7)], [], ["A"], true, some 0, 1, [], [], ["A"]⟩
        "B").batchPromise = some 1) ∧
    ((executeBatch (fun _ => (1, Except.ok 0))
        (getData ⟨["A", "B"], [("A", 7)], [], ["A"], true, some 0, 1, [], [], ["A"]⟩
          "B")).invoked = ["A", "B"]) ∧
    ("B" ∈ (["A", "B"] : List String).filter
        (fun j => (look [("A", (7 : Nat))] j).isNone &&
          (look ([] : List (String × String)) j).isNone)) := by
  have h := c3_late_arrival_new_cycle (fun _ => (1, Except.ok 0))
    ⟨["A", "B"], [("A", 7)], [], ["A"], true, some 0, 1, [], [], ["A"]⟩
    "B" (by decide) (by decide) (by decide) (by decide)
  refine ⟨h.1, ?_, ?_⟩
  · rw [h.2.2.1]
    decide
  · exact h.2.2.2.1

/-! ## Single-batch `LazyLoaderExecutor` (`src/runtime/orchestrator.ts`)

The shipped orchestrator schedules exactly one batch per executor:

```
async getData(moduleUrl) {
  this.requestedLoaders.add(moduleUrl);
  if (!this.isBatchScheduled) {
    this.isBatchScheduled = true;
    this.batchPromise = Promise.resolve().then(() => this.executeBatch());
  }
  await this.batchPromise;
  if (this.errors.has(moduleUrl)) throw this.errors.get(moduleUrl);
  return this.results.get(moduleUrl);
}
private async executeBatch() {
  const loadersToExecute = Array.from(this.requestedLoaders);
  const executions = loadersToExecute.map(async (moduleUrl) => {
    if (this.results.has(moduleUrl) || this.errors.has(moduleUrl)) return;
    const loader = this.registry.get(moduleUrl);
    if (!loader) { console.warn(...); return; }
    try { this.results.set(moduleUrl, await loader(this.context)); }
    catch (error) { this.errors.set(moduleUrl, error); }
  });
  await Promise.all(executions);
}
```

`executeBatch` is a fan-out: every execution's synchronous prologue
(skip-guard and registry lookup) runs before any of them settles, and
each settles only its own key, so the batch's effect is the
filter/filterMap below over the deduplicated requested set.  A loader's
`await loader(this.context)` for the request's fixed context is modelled
by its outcome `Except String Nat`. -/

namespace SrcOrch

/-- The Result-Store entry an execution of `id` produces, if any. -/
def resEntry (reg : List (String × Except String Nat)) (id : String) :
    Option (String × Nat) :=
  match look reg id with
  | some (Except.ok v) => some (id, v)
  | _ => none

/-- The Error-Store entry an execution of `id` produces, if any. -/
def errEntry (reg : List (String × Except String Nat)) (id : String) :
    Option (String × String) :=
  match look reg id with
  | some (Except.error e) => some (id, e)
  | _ => none

/-- `executeBatch`: (final results, final errors, loaders invoked). -/
def executeBatch (reg : List (String × Except String Nat))
    (requested : List String) (results : List (String × Nat))
    (errors : List (String × String)) :
    List (String × Nat) × List (String × String) × List String :=
  let loadersToExecute := dedupList requested
  let toRun := loadersToExecute.filter
    (fun id => (look results id).isNone && (look errors id).isNone)
  let started := toRun.filter (fun id => (look reg id).isSome)
  (results ++ toRun.filterMap (resEntry reg),
   errors ++ toRun.filterMap (errEntry reg),
   started)

/-- The tail of `getData` after `await this.batchPromise`: throw the
cached error, else return the cached value (`undefined` = `none`). -/
def getDataOutcome (errors : List (String × String))
    (results : List (String × Nat)) (id : String) :
    Except String (Option Nat) :=
  match look errors id with
  | some e => Except.error e
  | none => Except.ok (look results id)

theorem resEntry_eq (reg : List (String × Except String Nat)) (a : String) :
    resEntry reg a = none ∨
      ∃ v, resEntry reg a = some (a, v) ∧ look reg a = some (Except.ok v) := by
  cases h : look reg a with
  | none => exact Or.inl (by simp [resEntry, h])
  | some o =>
      cases o with
      | ok v => exact Or.inr ⟨v, by simp [resEntry, h], rfl⟩
      | error e => exact Or.inl (by simp [resEntry, h])

theorem errEntry_eq (reg : List (String × Except String Nat)) (a : String) :
    errEntry reg a = none ∨
      ∃ e, errEntry reg a = some (a, e) ∧ look reg a = some (Except.error e) := by
  cases h : look reg a with
  | none => exact Or.inl (by simp [errEntry, h])
  | some o =>
      cases o with
      | ok v => exact Or.inl (by simp [errEntry, h])
      | error e => exact Or.inr ⟨e, by simp [errEntry, h], rfl⟩

theorem look_filterMap_resEntry (reg : List (String × Except String Nat)) :
    ∀ (l : List String) (X : String) (v : Nat), X ∈ l →
      look reg X = some (Except.ok v) →
      look (l.filterMap (resEntry reg)) X = some v := by
  intro l
  induction l with
  | nil => intro X v h; cases h
  | cons a rest ih =>
      intro X v hmem hreg
      by_cases ha : a = X
      · subst ha
        simp [List.filterMap_cons, resEntry, hreg, look]
      · have hmem2 : X ∈ rest := by
          cases hmem with
          | head => exact absurd rfl ha
          | tail _ h => exact h
        rcases resEntry_eq reg a with h0 | ⟨w, h0, _⟩
        · rw [List.filterMap_cons, h0]
          exact ih X v hmem2 hreg
        · rw [List.filterMap_cons, h0]
          simp only [look, if_neg ha]
          exact ih X v hmem2 hreg

theorem look_filterMap_resEntry_none (reg : List (String × Except String Nat)) :
    ∀ (l : List String) (X : String),
      (∀ v, look reg X ≠ some (Except.ok v)) →
      look (l.filterMap (resEntry reg)) X = none := by
  intro l
  induction l with
  | nil => intro X _; rfl
  | cons a rest ih =>
      intro X hX
      rcases resEntry_eq reg a with h0 | ⟨w, h0, hga⟩
      · rw [List.filterMap_cons, h0]
        exact ih X hX
      · rw [List.filterMap_cons, h0]
        by_cases ha : a = X
        · subst ha
          exact absurd hga (hX w)
        · simp only [look, if_neg ha]
          exact ih X hX

theorem look_filterMap_errEntry (reg : List (String × Except String Nat)) :
    ∀ (l : List String) (X : String) (e : String), X ∈ l →
      look reg X = some (Except.error e) →
      look (l.filterMap (errEntry reg)) X = some e := by
  intro l
  induction l with
  | nil => intro X e h; cases h
  | cons a rest ih =>
      intro X e hmem hreg
      by_cases ha : a = X
      · subst ha
        simp [List.filterMap_cons, errEntry, hreg, look]
      · have hmem2 : X ∈ rest := by
          cases hmem with
          | head => exact absurd rfl ha
          | tail _ h => exact h
        rcases errEntry_eq reg a with h0 | ⟨w, h0, _⟩
        · rw [List.filterMap_cons, h0]
          exact ih X e hmem2 hreg
        · rw [List.filterMap_cons, h0]
          simp only [look, if_neg ha]
          exact ih X e hmem2 hreg

theorem look_filterMap_errEntry_none (reg : List (String × Except String Nat)) :
    ∀ (l : List String) (X : String),
      (∀ e, look reg X ≠ some (Except.error e)) →
      look (l.filterMap (errEntry reg)) X = none := by
  intro l
  induction l with
  | nil => intro X _; rfl
  | cons a rest ih =>
      intro X hX
      rcases errEntry_eq reg a with h0 | ⟨w, h0, hga⟩
      · rw [List.filterMap_cons, h0]
        exact ih X hX
      · rw [List.filterMap_cons, h0]
        by_cases ha : a = X
        · subst ha
          exact absurd hga (hX w)
        · simp only [look, if_neg ha]
          exact ih X hX

end SrcOrch

theorem mem_insIfAbsent {κ : Type} [DecidableEq κ] (a k : κ) (l : List κ) :
    a ∈ insIfAbsent k l ↔ a ∈ l ∨ a = k := by
  unfold insIfAbsent
  by_cases h : k ∈ l
  · rw [if_pos h]
    constructor
    · exact Or.inl
    · rintro (ha | ha)
      · exact ha
      · rw [ha]; exact h
  · rw [if_neg h]
    simp

theorem nodup_insIfAbsent {κ : Type} [DecidableEq κ] (k : κ) (l : List κ)
    (h : l.Nodup) : (insIfAbsent k l).Nodup := by
  unfold insIfAbsent
  by_cases hk : k ∈ l
  · rw [if_pos hk]; exact h
  · rw [if_neg hk]
    rw [List.nodup_append]
    exact ⟨h, List.nodup_singleton k, by
      intro a ha hb
      simp only [List.mem_singleton] at hb
      rw [hb] at ha
      exact hk ha⟩

theorem mem_foldl_insIfAbsent {κ : Type} [DecidableEq κ] (a : κ) :
    ∀ (l acc : List κ),
      a ∈ l.foldl (fun acc2 k => insIfAbsent k acc2) acc ↔ a ∈ acc ∨ a ∈ l := by
  intro l
  induction l with
  | nil => intro acc; simp
  | cons k rest ih =>
      intro acc
      rw [List.foldl_cons, ih, mem_insIfAbsent]
      constructor
      · rintro ((h | h) | h)
        · exact Or.inl h
        · exact Or.inr (by rw [h]; exact List.mem_cons_self _ _)
        · exact Or.inr (List.mem_cons_of_mem _ h)
      · rintro (h | h)
        · exact Or.inl (Or.inl h)
        · rcases List.mem_cons.mp h with h2 | h2
          · exact Or.inl (Or.inr h2)
          · exact Or.inr h2

theorem mem_dedupList {κ : Type} [DecidableEq κ] (a : κ) (l : List κ) :
    a ∈ dedupList l ↔ a ∈ l := by
  unfold dedupList
  rw [mem_foldl_insIfAbsent]
  simp

theorem nodup_foldl_insIfAbsent {κ : Type} [DecidableEq κ] :
    ∀ (l acc : List κ), acc.Nodup →
      (l.foldl (fun acc2 k => insIfAbsent k acc2) acc).Nodup := by
  intro l
  induction l with
  | nil => intro acc h; exact h
  | cons k rest ih =>
      intro acc h
      rw [List.foldl_cons]
      exact ih _ (nodup_insIfAbsent k acc h)

theorem nodup_dedupList {κ : Type} [DecidableEq κ] (l : List κ) :
    (dedupList l).Nodup :=
  nodup_foldl_insIfAbsent l [] List.nodup_nil

theorem executeBatch_empty_eq (reg : List (String × Except String Nat))
    (requested : List String) :
    SrcOrch.executeBatch reg requested [] [] =
      ((dedupList requested).filterMap (SrcOrch.resEntry reg),
       (dedupList requested).filterMap (SrcOrch.errEntry reg),
       (dedupList requested).filter (fun id => (look reg id).isSome)) := by
  unfold SrcOrch.executeBatch
  simp [look]

/-- C4: if the producer for `X` throws `e`, the failure lands in the
Error Store; every `getData X` (first or repeated — the read is over the
same settled stores, and the single-batch executor never schedules a
second batch) rejects with exactly that captured error while `X` was
started exactly once; every other requested id `Y` whose producer
succeeds still resolves with its own value; and the batch is not
aborted — every requested registered id settles into one of the two
stores. -/
theorem c4_producer_failure_isolated
    (reg : List (String × Except String Nat)) (requested : List String)
    (X : String) (e : String)
    (hX : look reg X = some (Except.error e))
    (hmem : X ∈ requested) :
    look (SrcOrch.executeBatch reg requested [] []).2.1 X = some e ∧
    SrcOrch.getDataOutcome (SrcOrch.executeBatch reg requested [] []).2.1
      (SrcOrch.executeBatch reg requested [] []).1 X = Except.error e ∧
    ((SrcOrch.executeBatch reg requested [] []).2.2.count X = 1) ∧
    (∀ Y v, Y ∈ requested → look reg Y = some (Except.ok v) →
      look (SrcOrch.executeBatch reg requested [] []).1 Y = some v ∧
      SrcOrch.getDataOutcome (SrcOrch.executeBatch reg requested [] []).2.1
        (SrcOrch.executeBatch reg requested [] []).1 Y = Except.ok (some v)) ∧
    (∀ Z, Z ∈ requested → (look reg Z).isSome →
      ((look (SrcOrch.executeBatch reg requested [] []).1 Z).isSome ∨
       (look (SrcOrch.executeBatch reg requested [] []).2.1 Z).isSome)) := by
  rw [executeBatch_empty_eq]
  have hmemd : X ∈ dedupList requested := (mem_dedupList X requested).mpr hmem
  have herrX : look ((dedupList requested).filterMap (SrcOrch.errEntry reg)) X =
      some e :=
    SrcOrch.look_filterMap_errEntry reg (dedupList requested) X e hmemd hX
  refine ⟨herrX, ?_, ?_, ?_, ?_⟩
  · unfold SrcOrch.getDataOutcome
    rw [herrX]
  · have hstart : X ∈ (dedupList requested).filter
        (fun id => (look reg id).isSome) := by
      rw [List.mem_filter]
      exact ⟨hmemd, by rw [hX]; rfl⟩
    exact List.count_eq_one_of_mem ((nodup_dedupList requested).filter _) hstart
  · intro Y v hYmem hY
    have hYd : Y ∈ dedupList requested := (mem_dedupList Y requested).mpr hYmem
    have hres : look ((dedupList requested).filterMap (SrcOrch.resEntry reg)) Y =
        some v :=
      SrcOrch.look_filterMap_resEntry reg (dedupList requested) Y v hYd hY
    have herr : look ((dedupList requested).filterMap (SrcOrch.errEntry reg)) Y =
        none :=
      SrcOrch.look_filterMap_errEntry_none reg (dedupList requested) Y
        (fun e2 hc => by rw [hY] at hc; cases hc)
    refine ⟨hres, ?_⟩
    unfold SrcOrch.getDataOutcome
    rw [herr, hres]
  · intro Z hZmem hZ
    have hZd : Z ∈ dedupList requested := (mem_dedupList Z requested).mpr hZmem
    cases hz : look reg Z with
    | none => rw [hz] at hZ; cases hZ
    | some o =>
        cases o with
        | ok v =>
            exact Or.inl (by
              rw [SrcOrch.look_filterMap_resEntry reg _ Z v hZd hz]; rfl)
        | error e2 =>
            exact Or.inr (by
              rw [SrcOrch.look_filterMap_errEntry reg _ Z e2 hZd hz]; rfl)

/-- C4 witness: registry \x7bX ↦ throws "boom", Y ↦ 5\x7d, requested
[X, Y, X]. -/
theorem c4_producer_failure_isolated_witness :
    look (SrcOrch.executeBatch
        [("X", Except.error "boom"), ("Y", Except.ok 5)] ["X", "Y", "X"]
        [] []).2.1 "X" = some "boom" ∧
    SrcOrch.getDataOutcome
      (SrcOrch.executeBatch
        [("X", Except.error "boom"), ("Y", Except.ok 5)] ["X", "Y", "X"]
        [] []).2.1
      (SrcOrch.executeBatch
        [("X", Except.error "boom"), ("Y", Except.ok 5)] ["X", "Y", "X"]
        [] []).1 "X" = Except.error "boom" ∧
    ((SrcOrch.executeBatch
        [("X", Except.error "boom"), ("Y", Except.ok 5)] ["X", "Y", "X"]
        [] []).2.2.count "X" = 1) ∧
    look (SrcOrch.executeBatch
        [("X", Except.error "boom"), ("Y", Except.ok 5)] ["X", "Y", "X"]
        [] []).1 "Y" = some 5 := by
  have h := c4_producer_failure_isolated
    [("X", Except.error "boom"), ("Y", Except.ok 5)] ["X", "Y", "X"]
    "X" "boom" (by decide) (by decide)
  exact ⟨h.1, h.2.1, h.2.2.1, (h.2.2.2.1 "Y" 5 (by decide) (by decide)).1⟩

/-- C7: `getData` for an id with no registered producer resolves to
`undefined` (`Except.ok none`) and never throws: the batch skips it
(warn only), so neither store ever gains an entry for it. -/
theorem c7_unregistered_resolves_undefined
    (reg : List (String × Except String Nat)) (requested : List String)
    (id : String) (h : look reg id = none) :
    SrcOrch.getDataOutcome (SrcOrch.executeBatch reg requested [] []).2.1
      (SrcOrch.executeBatch reg requested [] []).1 id = Except.ok none := by
  rw [executeBatch_empty_eq]
  have herr : look ((dedupList requested).filterMap (SrcOrch.errEntry reg)) id =
      none :=
    SrcOrch.look_filterMap_errEntry_none reg (dedupList requested) id
      (fun e hc => by rw [h] at hc; cases hc)
  have hres : look ((dedupList requested).filterMap (SrcOrch.resEntry reg)) id =
      none :=
    SrcOrch.look_filterMap_resEntry_none reg (dedupList requested) id
      (fun v hc => by rw [h] at hc; cases hc)
  unfold SrcOrch.getDataOutcome
  rw [herr, hres]

/-- C7 witness: id "missing" was never registered. -/
theorem c7_unregistered_resolves_undefined_witness :
    SrcOrch.getDataOutcome
      (SrcOrch.executeBatch [("X", Except.ok 3)] ["missing", "X"] [] []).2.1
      (SrcOrch.executeBatch [("X", Except.ok 3)] ["missing", "X"] [] []).1
      "missing" = Except.ok none :=
  c7_unregistered_resolves_undefined [("X", Except.ok 3)] ["missing", "X"]
    "missing" (by decide)

/-! ## Batch-scheduling control state of the single-batch executor

`getData` and `executeAll` of `src/runtime/orchestrator.ts` manage
`isBatchScheduled` / `batchPromise`; neither ever clears them.
`batchPromise` is identified by a generation number; `schedCount` counts
how many times a batch was scheduled. -/

namespace Ctl

structure ExecSt : Type where
  requestedLoaders : List String
  isBatchScheduled : Bool
  batchPromise : Option Nat
  nextGen : Nat
  schedCount : Nat
deriving DecidableEq

def initExec : ExecSt := ⟨[], false, none, 0, 0⟩

/-- Synchronous prologue of `getData`: add to the batch, schedule if not
already scheduled. -/
def getDataStep (s : ExecSt) (id : String) : ExecSt :=
  let s1 := { s with requestedLoaders := insIfAbsent id s.requestedLoaders }
  if s1.isBatchScheduled then s1
  else
    { s1 with
        isBatchScheduled := true,
        batchPromise := some s1.nextGen,
        nextGen := s1.nextGen + 1,
        schedCount := s1.schedCount + 1 }

/-- `executeAll`: early-return when already scheduled, else queue every
registered id and start the batch. -/
def executeAllStep (s : ExecSt) (registryIds : List String) : ExecSt :=
  if s.isBatchScheduled then s
  else
    let s1 := { s with requestedLoaders :=
      registryIds.foldl (fun acc id => insIfAbsent id acc) s.requestedLoaders }
    { s1 with
        isBatchScheduled := true,
        batchPromise := some s1.nextGen,
        nextGen := s1.nextGen + 1,
        schedCount := s1.schedCount + 1 }

inductive Op : Type where
  | getData (id : String) : Op
  | executeAll (registryIds : List String) : Op

def runOps (s : ExecSt) : List Op → ExecSt
  | [] => s
  | op :: rest =>
      match op with
      | Op.getData id => runOps (getDataStep s id) rest
      | Op.executeAll ids => runOps (executeAllStep s ids) rest

/-- Once scheduled, no operation changes anything but the requested set. -/
abbrev CtlInv (s : ExecSt) : Prop :=
  (s.isBatchScheduled = false → s.schedCount = 0 ∧ s.batchPromise = none) ∧
  s.schedCount ≤ 1

theorem getDataStep_scheduled (s : ExecSt) (id : String)
    (h : s.isBatchScheduled = true) :
    getDataStep s id =
      { s with requestedLoaders := insIfAbsent id s.requestedLoaders } := by
  unfold getDataStep
  simp [h]

theorem executeAllStep_scheduled (s : ExecSt) (ids : List String)
    (h : s.isBatchScheduled = true) : executeAllStep s ids = s := by
  unfold executeAllStep
  rw [if_pos h]

theorem runOps_scheduled :
    ∀ (ops : List Op) (s : ExecSt), s.isBatchScheduled = true →
      (runOps s ops).isBatchScheduled = true ∧
      (runOps s ops).batchPromise = s.batchPromise ∧
      (runOps s ops).schedCount = s.schedCount := by
  intro ops
  induction ops with
  | nil => intro s h; exact ⟨h, rfl, rfl⟩
  | cons op rest ih =>
      intro s h
      cases op with
      | getData id =>
          rw [runOps, getDataStep_scheduled s id h]
          exact ih _ h
      | executeAll ids =>
          rw [runOps, executeAllStep_scheduled s ids h]
          exact ih _ h

theorem runOps_inv :
    ∀ (ops : List Op) (s : ExecSt), CtlInv s → CtlInv (runOps s ops) := by
  intro ops
  induction ops with
  | nil => intro s h; exact h
  | cons op rest ih =>
      intro s h
      obtain ⟨hn, hle⟩ := h
      cases op with
      | getData id =>
          rw [runOps]
          refine ih _ ?_
          cases hb : s.isBatchScheduled with
          | true =>
              rw [getDataStep_scheduled s id hb]
              exact ⟨(fun hc => by rw [hb] at hc; cases hc), hle⟩
          | false =>
              obtain ⟨hc0, _⟩ := hn hb
              unfold getDataStep
              rw [if_neg (by simp [hb])]
              exact ⟨(fun hc => by cases hc), by simp [hc0]⟩
      | executeAll ids =>
          rw [runOps]
          refine ih _ ?_
          cases hb : s.isBatchScheduled with
          | true =>
              rw [executeAllStep_scheduled s ids hb]
              exact ⟨(fun hc => by rw [hb] at hc; cases hc), hle⟩
          | false =>
              obtain ⟨hc0, _⟩ := hn hb
              unfold executeAllStep
              rw [if_neg (by simp [hb])]
              exact ⟨(fun hc => by cases hc), by simp [hc0]⟩

end Ctl

/-- C9: an executor schedules at most one batch over its whole lifetime:
after any operation sequence the number of scheduled batches is at most
1, and once `batchPromise` has been set to a generation, any further
sequence of `getData` / `executeAll` calls leaves that same
`batchPromise` and schedules nothing new — later callers merely await
the original batch. -/
theorem c9_at_most_one_batch (ops ops2 : List Ctl.Op) (g : Nat) :
    (Ctl.runOps Ctl.initExec ops).schedCount ≤ 1 ∧
    ((Ctl.runOps Ctl.initExec ops).batchPromise = some g →
      (Ctl.runOps (Ctl.runOps Ctl.initExec ops) ops2).batchPromise = some g ∧
      (Ctl.runOps (Ctl.runOps Ctl.initExec ops) ops2).schedCount =
        (Ctl.runOps Ctl.initExec ops).schedCount) := by
  have hinv : Ctl.CtlInv (Ctl.runOps Ctl.initExec ops) :=
    Ctl.runOps_inv ops Ctl.initExec ⟨fun _ => ⟨rfl, rfl⟩, by simp [Ctl.initExec]⟩
  refine ⟨hinv.2, ?_⟩
  intro hg
  have hsched : (Ctl.runOps Ctl.initExec ops).isBatchScheduled = true := by
    cases hb : (Ctl.runOps Ctl.initExec ops).isBatchScheduled with
    | true => rfl
    | false =>
        obtain ⟨_, hnone⟩ := hinv.1 hb
        rw [hnone] at hg
        cases hg
  obtain ⟨_, hp, hc⟩ := Ctl.runOps_scheduled ops2 _ hsched
  exact ⟨by rw [hp, hg], hc⟩

/-- C9 witness: schedule via `getData "A"`, then replay `getData` and
`executeAll`; the original generation-0 batch promise survives and the
scheduling count stays put. -/
theorem c9_at_most_one_batch_witness :
    (Ctl.runOps Ctl.initExec [Ctl.Op.getData "A"]).schedCount ≤ 1 ∧
    (Ctl.runOps (Ctl.runOps Ctl.initExec [Ctl.Op.getData "A"])
        [Ctl.Op.getData "A", Ctl.Op.executeAll ["B"]]).batchPromise = some 0 ∧
    (Ctl.runOps (Ctl.runOps Ctl.initExec [Ctl.Op.getData "A"])
        [Ctl.Op.getData "A", Ctl.Op.executeAll ["B"]]).schedCount =
      (Ctl.runOps Ctl.initExec [Ctl.Op.getData "A"]).schedCount := by
  have h := c9_at_most_one_batch [Ctl.Op.getData "A"]
    [Ctl.Op.getData "A", Ctl.Op.executeAll ["B"]] 0
  exact ⟨h.1, (h.2 (by decide)).1, (h.2 (by decide)).2⟩

theorem look_setStore_self {κ α : Type} [DecidableEq κ]
    (l : List (κ × α)) (k : κ) (v : α) : look (setStore k v l) k = some v := by
  induction l with
  | nil => simp [setStore, look]
  | cons p rest ih =>
      obtain ⟨a, w⟩ := p
      by_cases ha : a = k
      · simp [setStore, ha, look]
      · simp only [setStore, if_neg ha, look, ha]
        exact ih

theorem look_setStore_other {κ α : Type} [DecidableEq κ]
    (l : List (κ × α)) (k q : κ) (v : α) (h : k ≠ q) :
    look (setStore k v l) q = look l q := by
  induction l with
  | nil => simp [setStore, look, if_neg h]
  | cons p rest ih =>
      obtain ⟨a, w⟩ := p
      by_cases ha : a = k
      · subst ha
        simp only [setStore, if_pos rfl, look, if_neg h]
      · simp only [setStore, if_neg ha, look]
        by_cases haq : a = q
        · rw [if_pos haq, if_pos haq]
        · rw [if_neg haq, if_neg haq]
          exact ih

/-! ## Dedupe Cache

Shallow embedding of `promiseDedupe` (keyed iteration, the one the test
suite exercises):

```
export function promiseDedupe() {
  const cache = new Map<string, Promise<any>>();
  return function dedupe<T>(key: string, fn: AnyAsyncFn<T>): Promise<T> {
    if (!cache.has(key)) {
      cache.set(key, fn());
    }
    return cache.get(key)!;
  };
}
```

and of the `fn`-keyed variant of `src/runtime/dedupe.ts`:

```
function keyFrom(fn, args) { return fn.name + ':' + JSON.stringify(args); }
return function dedupe(fn, ...args) {
  const key = keyFrom(fn, args);
  if (!cache.has(key)) {
    cache.set(key, fn(...args));
  }
  return cache.get(key)!;
};
```

A producer invocation `fn()` yields a fresh promise, identified by its
allocation number `nextP`; the promise is stored before it settles and
the `cache.has` guard never consults settlement, so cached rejections
are returned as-is.  `invoked` logs `(key, fnId)` per producer start. -/

namespace Dedup

structure DState : Type where
  cache : List (String × Nat)
  nextP : Nat
  invoked : List (String × Nat)
deriving DecidableEq

def initD : DState := ⟨[], 0, []⟩

/-- One call `dedupe(key, fn)`: return the cached promise, else invoke
`fn`, store its promise, and return it. -/
def dedupeCall (s : DState) (key : String) (fnId : Nat) : Nat × DState :=
  match look s.cache key with
  | some p => (p, s)
  | none =>
      (s.nextP,
       ⟨setStore key s.nextP s.cache, s.nextP + 1, s.invoked ++ [(key, fnId)]⟩)

/-- A sequence of `dedupe` calls against one cache instance; returns the
final state and the promise returned to each caller in order. -/
def runDedupe (s : DState) : List (String × Nat) → DState × List Nat
  | [] => (s, [])
  | (k, f) :: rest =>
      let r := dedupeCall s k f
      let t := runDedupe r.2 rest
      (t.1, r.1 :: t.2)

/-- Number of producer invocations recorded for `k`. -/
def countInv (s : DState) (k : String) : Nat :=
  (s.invoked.filter (fun e => e.1 = k)).length

/-- Cache entries persist: once `k ↦ p`, every later call still sees it
(a rejected promise is never evicted or retried). -/
theorem runDedupe_cache_persist :
    ∀ (calls : List (String × Nat)) (s : DState) (k : String) (p : Nat),
      look s.cache k = some p → look (runDedupe s calls).1.cache k = some p := by
  intro calls
  induction calls with
  | nil => intro s k p h; exact h
  | cons c rest ih =>
      obtain ⟨k0, f0⟩ := c
      intro s k p h
      rw [runDedupe]
      cases hc : look s.cache k0 with
      | some q =>
          simp only [dedupeCall, hc]
          exact ih s k p h
      | none =>
          simp only [dedupeCall, hc]
          refine ih _ k p ?_
          have hk : k0 ≠ k := by
            intro he
            rw [he] at hc
            rw [hc] at h
            cases h
          rw [look_setStore_other s.cache k0 k s.nextP hk]
          exact h

/-- Every caller receives exactly the promise the final cache holds for
its key. -/
theorem runDedupe_returns :
    ∀ (calls : List (String × Nat)) (s : DState) (i : Nat) (k : String) (f : Nat),
      calls[i]? = some (k, f) →
      ∃ p, (runDedupe s calls).2[i]? = some p ∧
        look (runDedupe s calls).1.cache k = some p := by
  intro calls
  induction calls with
  | nil => intro s i k f h; simp at h
  | cons c rest ih =>
      obtain ⟨k0, f0⟩ := c
      intro s i k f h
      rw [runDedupe]
      cases i with
      | zero =>
          simp only [List.getElem?_cons_zero, Option.some.injEq] at h
          injection h with hk hf
          subst hk
          cases hc : look s.cache k0 with
          | some q =>
              simp only [dedupeCall, hc]
              exact ⟨q, by simp, runDedupe_cache_persist rest s k0 q hc⟩
          | none =>
              simp only [dedupeCall, hc]
              refine ⟨s.nextP, by simp, ?_⟩
              exact runDedupe_cache_persist rest _ k0 s.nextP
                (look_setStore_self s.cache k0 s.nextP)
      | succ i =>
          simp only [List.getElem?_cons_succ] at h
          obtain ⟨p, hp1, hp2⟩ := ih (dedupeCall s k0 f0).2 i k f h
          exact ⟨p, by simpa using hp1, hp2⟩

/-- Invariant: a key has exactly one recorded invocation iff it is
cached, none otherwise. -/
def DInv (s : DState) : Prop :=
  ∀ k, countInv s k = if (look s.cache k).isSome then 1 else 0

theorem runDedupe_inv :
    ∀ (calls : List (String × Nat)) (s : DState),
      DInv s → DInv (runDedupe s calls).1 := by
  intro calls
  induction calls with
  | nil => intro s h; exact h
  | cons c rest ih =>
      obtain ⟨k0, f0⟩ := c
      intro s h
      rw [runDedupe]
      cases hc : look s.cache k0 with
      | some q =>
          simp only [dedupeCall, hc]
          exact ih s h
      | none =>
          simp only [dedupeCall, hc]
          refine ih _ ?_
          intro q
          by_cases hq : q = k0
          · subst hq
            have h0 : countInv s q = 0 := by
              have := h q
              rw [hc] at this
              simpa using this
            unfold countInv at h0 ⊢
            simp only [List.filter_append, List.length_append]
            rw [h0]
            simp [look_setStore_self]
          · have hne : k0 ≠ q := fun he => hq he.symm
            have hs := h q
            unfold countInv at hs ⊢
            simp only [List.filter_append, List.length_append]
            rw [look_setStore_other s.cache k0 q s.nextP hne]
            have hzero : (List.filter (fun e => decide (e.1 = q))
                [(k0, f0)]).length = 0 := by
              simp [hne]
            rw [hzero]
            omega

/-- A key is cached after the run iff some call used it. -/
theorem runDedupe_cache_keys :
    ∀ (calls : List (String × Nat)) (s : DState) (k : String),
      look s.cache k = none →
      ((look (runDedupe s calls).1.cache k).isSome ↔
        k ∈ calls.map Prod.fst) := by
  intro calls
  induction calls with
  | nil =>
      intro s k h
      simp [runDedupe, h]
  | cons c rest ih =>
      obtain ⟨k0, f0⟩ := c
      intro s k h
      rw [runDedupe]
      by_cases hk : k0 = k
      · subst hk
        cases hc : look s.cache k0 with
        | some q => rw [hc] at h; cases h
        | none =>
            simp only [dedupeCall, hc]
            have : look (runDedupe
                ⟨setStore k0 s.nextP s.cache, s.nextP + 1,
                  s.invoked ++ [(k0, f0)]⟩ rest).1.cache k0 = some s.nextP :=
              runDedupe_cache_persist rest _ k0 s.nextP
                (look_setStore_self s.cache k0 s.nextP)
            simp [this]
      · have hk2 : k ≠ k0 := fun he => hk he.symm
        cases hc : look s.cache k0 with
        | some q =>
            simp only [dedupeCall, hc]
            rw [ih s k h]
            simp [hk2]
        | none =>
            simp only [dedupeCall, hc]
            rw [ih _ k (by rw [look_setStore_other s.cache k0 k s.nextP hk]; exact h)]
            simp [hk2]

/-- Any recorded invocation for `k` (absent initially) carries the
function id of the *first* call with key `k`. -/
def firstWithK (k : String) : List (String × Nat) → Option Nat
  | [] => none
  | (k0, f0) :: rest => if k0 = k then some f0 else firstWithK k rest

theorem runDedupe_invoked_first :
    ∀ (calls : List (String × Nat)) (s : DState) (k : String) (f : Nat),
      (k, f) ∈ (runDedupe s calls).1.invoked →
      (k, f) ∈ s.invoked ∨
        (look s.cache k = none ∧ firstWithK k calls = some f) := by
  intro calls
  induction calls with
  | nil => intro s k f h; exact Or.inl h
  | cons c rest ih =>
      obtain ⟨k0, f0⟩ := c
      intro s k f h
      rw [runDedupe] at h
      cases hc : look s.cache k0 with
      | some q =>
          simp only [dedupeCall, hc] at h
          rcases ih s k f h with h2 | ⟨h2, h3⟩
          · exact Or.inl h2
          · have hk : k0 ≠ k := by
              intro he
              rw [he] at hc
              rw [hc] at h2
              cases h2
            exact Or.inr ⟨h2, by rw [firstWithK, if_neg hk]; exact h3⟩
      | none =>
          simp only [dedupeCall, hc] at h
          rcases ih _ k f h with h2 | ⟨h2, h3⟩
          · rcases List.mem_append.mp h2 with h4 | h4
            · exact Or.inl h4
            · simp only [List.mem_singleton] at h4
              injection h4 with ha hb
              subst ha
              subst hb
              exact Or.inr ⟨hc, by rw [firstWithK, if_pos rfl]⟩
          · have hk : k0 ≠ k := by
              intro he
              subst he
              rw [look_setStore_self s.cache k0 s.nextP] at h2
              cases h2
            rw [look_setStore_other s.cache k0 k s.nextP hk] at h2
            exact Or.inr ⟨h2, by rw [firstWithK, if_neg hk]; exact h3⟩

end Dedup

/-- C5: for every call sequence against one Dedupe Cache instance, a
producer is invoked exactly once per used key (and never for unused
keys) — a rejected promise stays cached and is never retried — and every
pair of calls with the same key (concurrent or later, before or after
settlement) receives the exact same cached promise. -/
theorem c5_dedupe_exactly_once (calls : List (String × Nat)) (k : String)
    (i j : Nat) (c d : String × Nat) :
    Dedup.countInv (Dedup.runDedupe Dedup.initD calls).1 k =
      (if k ∈ calls.map Prod.fst then 1 else 0) ∧
    (calls[i]? = some c → calls[j]? = some d → c.1 = d.1 →
      (Dedup.runDedupe Dedup.initD calls).2[i]? =
        (Dedup.runDedupe Dedup.initD calls).2[j]?) := by
  constructor
  · have hinv := Dedup.runDedupe_inv calls Dedup.initD
      (fun q => by simp [Dedup.countInv, Dedup.initD, look])
    have hkeys := Dedup.runDedupe_cache_keys calls Dedup.initD k rfl
    rw [hinv k]
    by_cases hm : k ∈ calls.map Prod.fst
    · rw [if_pos hm, if_pos (hkeys.mpr hm)]
    · rw [if_neg hm]
      rw [if_neg (fun hs => hm (hkeys.mp hs))]
  · intro hi hj hkey
    obtain ⟨p, hp1, hp2⟩ :=
      Dedup.runDedupe_returns calls Dedup.initD i c.1 c.2 (by rw [hi])
    obtain ⟨q, hq1, hq2⟩ :=
      Dedup.runDedupe_returns calls Dedup.initD j d.1 d.2 (by rw [hj])
    rw [← hkey] at hq2
    rw [hp2] at hq2
    injection hq2 with hpq
    rw [hp1, hq1, hpq]

/-- C5 witness: three calls, two sharing key "k": one invocation for
"k", none for unused keys, and both "k" callers get promise 0. -/
theorem c5_dedupe_exactly_once_witness :
    Dedup.countInv (Dedup.runDedupe Dedup.initD
      [("k", 0), ("k", 1), ("other", 2)]).1 "k" = 1 ∧
    (Dedup.runDedupe Dedup.initD [("k", 0), ("k", 1), ("other", 2)]).2[0]? =
      (Dedup.runDedupe Dedup.initD [("k", 0), ("k", 1), ("other", 2)]).2[1]? := by
  have h := c5_dedupe_exactly_once [("k", 0), ("k", 1), ("other", 2)] "k"
    0 1 ("k", 0) ("k", 1)
  exact ⟨h.1.trans (by decide), h.2 (by decide) (by decide) rfl⟩

/-! ### The `fn`-keyed dedupe of `src/runtime/dedupe.ts` (C10) -/

/-- A JavaScript function value: its `name` property and an identity
distinguishing distinct function objects.  Two distinct anonymous
functions share `name = ""`. -/
structure Fn : Type where
  name : String
  fid : Nat
deriving DecidableEq

/-- `keyFrom(fn, args) = fn.name + ':' + JSON.stringify(args)`; `argsJson`
is the (deterministic) JSON serialization of the argument list. -/
def keyFrom (fn : Fn) (argsJson : String) : String :=
  fn.name ++ ":" ++ argsJson

/-- Lower the `dedupe(fn, ...args)` call sequence onto the keyed cache:
each call uses `keyFrom` as its cache key and starts `fn(...args)` on a
miss. -/
def toKeyed (calls : List (Fn × String)) : List (String × Nat) :=
  calls.map (fun c => (keyFrom c.1 c.2, c.1.fid))

def runDedupeArgs (s : Dedup.DState) (calls : List (Fn × String)) :
    Dedup.DState × List Nat :=
  Dedup.runDedupe s (toKeyed calls)

/-- C10: the Context dedupe keys on `fn.name + ':' + JSON.stringify(args)`,
so two calls whose functions have equal `name` (e.g. two distinct
anonymous functions) and JSON-equal argument lists share one cache key:
both callers receive the same promise, that key's producer runs exactly
once, and every invocation recorded for the key is the function of the
first call with that key. -/
theorem c10_dedupe_key_from_name_and_args (calls : List (Fn × String))
    (i j : Nat) (ci cj : Fn × String)
    (hi : calls[i]? = some ci) (hj : calls[j]? = some cj)
    (hname : ci.1.name = cj.1.name) (hargs : ci.2 = cj.2) :
    (runDedupeArgs Dedup.initD calls).2[i]? =
      (runDedupeArgs Dedup.initD calls).2[j]? ∧
    Dedup.countInv (runDedupeArgs Dedup.initD calls).1 (keyFrom ci.1 ci.2) = 1 ∧
    (∀ f, (keyFrom ci.1 ci.2, f) ∈ (runDedupeArgs Dedup.initD calls).1.invoked →
      Dedup.firstWithK (keyFrom ci.1 ci.2) (toKeyed calls) = some f) := by
  have hkeq : keyFrom ci.1 ci.2 = keyFrom cj.1 cj.2 := by
    unfold keyFrom
    rw [hname, hargs]
  have hki : (toKeyed calls)[i]? = some (keyFrom ci.1 ci.2, ci.1.fid) := by
    unfold toKeyed
    rw [List.getElem?_map, hi]
    rfl
  have hkj : (toKeyed calls)[j]? = some (keyFrom cj.1 cj.2, cj.1.fid) := by
    unfold toKeyed
    rw [List.getElem?_map, hj]
    rfl
  refine ⟨?_, ?_, ?_⟩
  · obtain ⟨p, hp1, hp2⟩ := Dedup.runDedupe_returns (toKeyed calls) Dedup.initD
      i (keyFrom ci.1 ci.2) ci.1.fid hki
    obtain ⟨q, hq1, hq2⟩ := Dedup.runDedupe_returns (toKeyed calls) Dedup.initD
      j (keyFrom cj.1 cj.2) cj.1.fid hkj
    rw [← hkeq] at hq2
    rw [hp2] at hq2
    injection hq2 with hpq
    unfold runDedupeArgs
    rw [hp1, hq1, hpq]
  · have hinv := Dedup.runDedupe_inv (toKeyed calls) Dedup.initD
      (fun q => by simp [Dedup.countInv, Dedup.initD, look])
    have hkeys := Dedup.runDedupe_cache_keys (toKeyed calls) Dedup.initD
      (keyFrom ci.1 ci.2) rfl
    have hmem : keyFrom ci.1 ci.2 ∈ (toKeyed calls).map Prod.fst := by
      have : (keyFrom ci.1 ci.2, ci.1.fid) ∈ toKeyed calls :=
        List.getElem?_mem hki
      exact List.mem_map_of_mem Prod.fst this
    unfold runDedupeArgs
    rw [hinv (keyFrom ci.1 ci.2), if_pos (hkeys.mpr hmem)]
  · intro f hf
    rcases Dedup.runDedupe_invoked_first (toKeyed calls) Dedup.initD
      (keyFrom ci.1 ci.2) f hf with h2 | ⟨_, h3⟩
    · cases h2
    · exact h3

/-- C10 witness: two distinct anonymous functions (`name = ""`) called
with the same serialized arguments `"[1]"` collide on one key: both
callers get promise 0 and only the first function (id 0) is ever
invoked for that key. -/
theorem c10_dedupe_key_from_name_and_args_witness :
    (runDedupeArgs Dedup.initD [(⟨"", 0⟩, "[1]"), (⟨"", 1⟩, "[1]")]).2[0]? =
      (runDedupeArgs Dedup.initD [(⟨"", 0⟩, "[1]"), (⟨"", 1⟩, "[1]")]).2[1]? ∧
    Dedup.countInv
      (runDedupeArgs Dedup.initD [(⟨"", 0⟩, "[1]"), (⟨"", 1⟩, "[1]")]).1
      (keyFrom ⟨"", 0⟩ "[1]") = 1 ∧
    Dedup.firstWithK (keyFrom ⟨"", 0⟩ "[1]")
      (toKeyed [(⟨"", 0⟩, "[1]"), (⟨"", 1⟩, "[1]")]) = some 0 := by
  have h := c10_dedupe_key_from_name_and_args
    [(⟨"", 0⟩, "[1]"), (⟨"", 1⟩, "[1]")] 0 1 (⟨"", 0⟩, "[1]") (⟨"", 1⟩, "[1]")
    (by decide) (by decide) rfl rfl
  exact ⟨h.1, h.2.1, h.2.2 0 (by decide)⟩

/-! ## Scoped registry (`src/runtime/registry.ts`)

```
export function registerLoader(moduleUrl: string, loader: LoaderFn) {
  const registry = requestStorage.getStore();
  if (!registry) { return; }                  // silent no-op outside a request
  if (registry.has(moduleUrl)) { console.log('... skipping'); return; }
  registry.set(moduleUrl, loader);
}
```

`store` is the result of `requestStorage.getStore()` (`none` when no
scope is active); loaders are identified by numbers.  The second
component reports whether the duplicate-registration diagnostic was
logged. -/

def registerLoader (store : Option (List (String × Nat))) (moduleUrl : String)
    (loader : Nat) : Option (List (String × Nat)) × Bool :=
  match store with
  | none => (none, false)
  | some registry =>
      if (look registry moduleUrl).isSome then (some registry, true)
      else (some (setStore moduleUrl loader registry), false)

/-- C8: `register` is total (never throws) and never overwrites: with no
active scope it is a silent no-op; with the id already present it keeps
the registry unchanged and only logs a diagnostic (first writer wins);
only when the id is absent does it extend the mapping with that loader —
and every pre-existing binding survives every call. -/
theorem c8_register_never_overwrites (store : Option (List (String × Nat)))
    (id : String) (f : Nat) :
    (registerLoader none id f = (none, false)) ∧
    (∀ reg g, store = some reg → look reg id = some g →
      registerLoader store id f = (some reg, true)) ∧
    (∀ reg, store = some reg → look reg id = none →
      registerLoader store id f = (some (setStore id f reg), false) ∧
      look (setStore id f reg) id = some f) ∧
    (∀ reg j g reg2, store = some reg → look reg j = some g →
      (registerLoader store id f).1 = some reg2 → look reg2 j = some g) := by
  refine ⟨rfl, ?_, ?_, ?_⟩
  · intro reg g hs hg
    subst hs
    simp only [registerLoader]
    rw [if_pos (by rw [hg]; rfl)]
  · intro reg hs hn
    subst hs
    simp only [registerLoader]
    rw [if_neg (by rw [hn]; simp)]
    exact ⟨rfl, look_setStore_self reg id f⟩
  · intro reg j g reg2 hs hj h2
    subst hs
    simp only [registerLoader] at h2
    cases hl : (look reg id).isSome with
    | true =>
        rw [if_pos hl] at h2
        injection h2 with h3
        rw [← h3]
        exact hj
    | false =>
        rw [if_neg (by rw [hl]; simp)] at h2
        injection h2 with h3
        rw [← h3]
        have hid : id ≠ j := by
          intro he
          subst he
          rw [hj] at hl
          cases hl
        rw [look_setStore_other reg id j f hid]
        exact hj

/-- C8 witness: outside a scope nothing happens; re-registering "a" is a
diagnostic-only no-op; registering fresh "b" extends the map and leaves
"a"'s loader untouched. -/
theorem c8_register_never_overwrites_witness :
    (registerLoader none "a" 2 = (none, false)) ∧
    (registerLoader (some [("a", 1)]) "a" 2 = (some [("a", 1)], true)) ∧
    (registerLoader (some [("a", 1)]) "b" 2 =
      (some (setStore "b" 2 [("a", 1)]), false)) ∧
    (look (setStore "b" 2 [("a", 1)]) "b" = some 2) ∧
    (look ((registerLoader (some [("a", 1)]) "b" 2).1.getD []) "a" = some 1) := by
  have h1 := c8_register_never_overwrites (some [("a", 1)]) "a" 2
  have h2 := c8_register_never_overwrites (some [("a", 1)]) "b" 2
  have hins := h2.2.2.1 [("a", 1)] rfl (by decide)
  refine ⟨h1.1, h1.2.1 [("a", 1)] 1 rfl (by decide), hins.1, hins.2, ?_⟩
  have := h2.2.2.2 [("a", 1)] "a" 1 (setStore "b" 2 [("a", 1)]) rfl (by decide)
    (by rw [hins.1])
  rw [hins.1]
  simpa using this


/-! ## Cross-request isolation (`requestStorage` + `initializeRequestRegistry`)

```
const requestStorage = new AsyncLocalStorage<Map<string, LoaderFn>>();
export function initializeRequestRegistry<T>(callback: () => T): T {
  const registry = new Map<string, LoaderFn>();
  return requestStorage.run(registry, callback);
}
```

Store heap model: `new Map()` allocates a fresh reference (`nextRef`);
`requestStorage.run` binds the scope (one per `runScoped` invocation) to
that reference.  AsyncLocalStorage's contract — `getStore()` inside a
scope's dynamic extent, including its asynchronous continuations,
returns that scope's store — is the semantics of the `register` event:
an event interleaved from scope `sc`'s extent reads the binding of `sc`.
Events of concurrent scopes interleave arbitrarily in the single
execution thread. -/

inductive REv : Type where
  | runScoped (scope : Nat) : REv
  | register (scope : Option Nat) (id : String) : REv
deriving DecidableEq

structure RState : Type where
  heap : List (Nat × List String)
  scopeMap : List (Nat × Nat)
  nextRef : Nat
deriving DecidableEq

def initR : RState := ⟨[], [], 0⟩

/-- Insert-if-absent registration into the map object `ref` points to
(the body of `registerLoader` under an active scope). -/
def updateRef (ref : Nat) (id : String) :
    List (Nat × List String) → List (Nat × List String)
  | [] => []
  | (r, ids) :: rest =>
      if r = ref then (r, insIfAbsent id ids) :: rest
      else (r, ids) :: updateRef ref id rest

def stepR (s : RState) : REv → RState
  | REv.runScoped sc =>
      ⟨(s.nextRef, []) :: s.heap, (sc, s.nextRef) :: s.scopeMap, s.nextRef + 1⟩
  | REv.register osc id =>
      match osc with
      | none => s
      | some sc =>
          match look s.scopeMap sc with
          | none => s
          | some ref => { s with heap := updateRef ref id s.heap }

def runR (s : RState) (evs : List REv) : RState :=
  evs.foldl stepR s

/-- The registry contents `getRegistry()` observes inside scope `sc`
(empty when the scope was never opened). -/
def registryOf (s : RState) (sc : Nat) : List String :=
  (((look s.scopeMap sc).bind (fun ref => look s.heap ref)).getD [])

/-- Well-formedness: every bound store reference was allocated, and no
two scopes share a store object. -/
abbrev RInv (s : RState) : Prop :=
  (∀ p, p ∈ s.scopeMap → p.2 < s.nextRef) ∧
  (s.scopeMap.map Prod.snd).Nodup

theorem look_updateRef (ref : Nat) (id : String) :
    ∀ (heap : List (Nat × List String)) (q : Nat),
      look (updateRef ref id heap) q =
        if q = ref then (look heap q).map (insIfAbsent id) else look heap q := by
  intro heap
  induction heap with
  | nil =>
      intro q
      by_cases hq : q = ref
      · rw [if_pos hq]; rfl
      · rw [if_neg hq]; rfl
  | cons p rest ih =>
      intro q
      obtain ⟨r, ids⟩ := p
      by_cases hr : r = ref
      · subst hr
        by_cases hq : r = q
        · subst hq
          simp [updateRef, look]
        · have hq2 : ¬(q = r) := fun he => hq he.symm
          simp [updateRef, look, hq, hq2]
      · by_cases hq : r = q
        · subst hq
          have hq2 : ¬(r = ref) := hr
          simp [updateRef, look, hq2]
        · simp only [updateRef, if_neg hr, look, if_neg hq]
          exact ih q

theorem refs_distinct (s : RState) (hinv : RInv s) (a b ra rb : Nat)
    (hab : a ≠ b) (ha : look s.scopeMap a = some ra)
    (hb : look s.scopeMap b = some rb) : ra ≠ rb := by
  intro he
  subst he
  have hma := mem_of_look_eq_some s.scopeMap a ra ha
  have hmb := mem_of_look_eq_some s.scopeMap b ra hb
  have := List.inj_on_of_nodup_map hinv.2 hma hmb rfl
  injection this with h1 _
  exact hab h1

theorem stepR_inv (s : RState) (e : REv) (h : RInv s) : RInv (stepR s e) := by
  obtain ⟨hbound, hnd⟩ := h
  cases e with
  | runScoped sc =>
      constructor
      · intro p hp
        rcases List.mem_cons.mp hp with h2 | h2
        · rw [h2]
          exact Nat.lt_succ_self _
        · exact Nat.lt_succ_of_lt (hbound p h2)
      · simp only [stepR, List.map_cons]
        rw [List.nodup_cons]
        constructor
        · intro hc
          rcases List.mem_map.mp hc with ⟨p, hp, hp2⟩
          have := hbound p hp
          omega
        · exact hnd
  | register osc id =>
      cases osc with
      | none => exact ⟨hbound, hnd⟩
      | some sc =>
          cases hl : look s.scopeMap sc with
          | none =>
              simp only [stepR, hl]
              exact ⟨hbound, hnd⟩
          | some ref =>
              simp only [stepR, hl]
              exact ⟨hbound, hnd⟩

theorem stepR_registry_notin (s : RState) (e : REv) (b : Nat) (id : String)
    (hinv : RInv s) (hne : e ≠ REv.register (some b) id)
    (hnot : id ∉ registryOf s b) : id ∉ registryOf (stepR s e) b := by
  unfold registryOf at hnot ⊢
  cases e with
  | runScoped c =>
      by_cases hc : c = b
      · subst hc
        simp [stepR, look]
      · simp only [stepR, look, if_neg hc]
        cases hl : look s.scopeMap b with
        | none => simp
        | some refB =>
            have hlt : refB < s.nextRef :=
              hinv.1 (b, refB) (mem_of_look_eq_some s.scopeMap b refB hl)
            have hne2 : ¬(s.nextRef = refB) := by omega
            rw [hl] at hnot
            simp only [Option.some_bind, look, if_neg hne2]
            simpa using hnot
  | register osc id2 =>
      cases osc with
      | none => exact hnot
      | some c =>
          cases hl : look s.scopeMap c with
          | none =>
              simp only [stepR, hl]
              exact hnot
          | some refC =>
              simp only [stepR, hl]
              cases hlb : look s.scopeMap b with
              | none => simp [hlb]
              | some refB =>
                  rw [hlb] at hnot
                  simp only [Option.some_bind] at hnot
                  simp only [Option.some_bind]
                  rw [look_updateRef refC id2 s.heap refB]
                  by_cases hcb : c = b
                  · subst hcb
                    rw [hl] at hlb
                    injection hlb with hrr
                    subst hrr
                    rw [if_pos rfl]
                    have hid : id2 ≠ id := by
                      intro he
                      subst he
                      exact hne rfl
                    cases hh : look s.heap refC with
                    | none => simp
                    | some ids =>
                        rw [hh] at hnot
                        intro hmem
                        have hmem2 : id ∈ insIfAbsent id2 ids := hmem
                        have hnot2 : id ∉ ids := hnot
                        rcases (mem_insIfAbsent id id2 ids).mp hmem2 with h2 | h2
                        · exact hnot2 h2
                        · exact hid h2.symm
                  · have hrne : refB ≠ refC :=
                      refs_distinct s hinv b c refB refC
                        (fun he => hcb he.symm) hlb hl
                    rw [if_neg hrne]
                    exact hnot

theorem runR_no_foreign :
    ∀ (evs : List REv) (s : RState) (b : Nat) (id : String),
      RInv s → REv.register (some b) id ∉ evs →
      id ∉ registryOf s b → id ∉ registryOf (runR s evs) b := by
  intro evs
  induction evs with
  | nil => intro s b id _ _ h3; exact h3
  | cons e rest ih =>
      intro s b id h1 h2 h3
      have h2r : REv.register (some b) id ∉ rest :=
        fun hc => h2 (List.mem_cons_of_mem _ hc)
      have h2e : e ≠ REv.register (some b) id := by
        intro he
        exact h2 (by rw [he]; exact List.mem_cons_self _ _)
      exact ih (stepR s e) b id (stepR_inv s e h1)
        h2r (stepR_registry_notin s e b id h1 h2e h3)

/-- C6: two concurrently interleaved `runScoped` scopes never observe
each other's registrations: whatever the interleaving of scope
creations and registrations on the single execution thread, an id
registered inside scope `a`'s dynamic extent is invisible in scope `b`'s
registry unless `b`'s own extent registered it too — each
`initializeRequestRegistry` binds its scope to a freshly allocated
`Map`. -/
theorem c6_cross_request_isolation (evs : List REv) (a b : Nat) (id : String)
    (_hab : a ≠ b)
    (_hrega : REv.register (some a) id ∈ evs)
    (hregb : REv.register (some b) id ∉ evs) :
    id ∉ registryOf (runR initR evs) b := by
  refine runR_no_foreign evs initR b id ⟨(fun p hp => by cases hp), List.nodup_nil⟩
    hregb ?_
  unfold registryOf
  simp [initR, look]

/-- C6 witness: scopes 0 and 1 interleave; "x" registered in scope 0
does not appear in scope 1's registry. -/
theorem c6_cross_request_isolation_witness :
    "x" ∉ registryOf (runR initR
      [REv.runScoped 0, REv.runScoped 1, REv.register (some 0) "x",
       REv.register (some 1) "y", REv.register (some 0) "z"]) 1 :=
  c6_cross_request_isolation
    [REv.runScoped 0, REv.runScoped 1, REv.register (some 0) "x",
     REv.register (some 1) "y", REv.register (some 0) "z"]
    0 1 "x" (by decide) (by decide) (by decide)
